import Mathlib

/-!
Shallow embedding of `src/python/minesweeper.py` (the `Cell`/`Board` game
engine).  Python `list` indexing is modelled faithfully: an index `i` into a
list of length `L` resolves to `i` when `0 ≤ i < L`, wraps to `L + i` when
`-L ≤ i < 0`, and raises `IndexError` otherwise.  Exceptions are modelled as
explicit error results that carry the board state at the moment of the raise
(Python mutates the board in place, so partial mutations survive a raise).
-/

/-- Python exceptions that the engine can raise: the built-in `IndexError`
(from unclipped list indexing) and the game's own `MineError(pos)`. -/
inductive Err where
  | indexError : Err
  | mineError : Int × Int → Err
deriving DecidableEq, Repr

/-- A grid coordinate `(x, y)`, a Python `tuple[int, int]`. -/
abbrev Pos := Int × Int

/-- `class Cell` (line 16): per-position state with the dataclass defaults
`mine=False, flagged=False, covered=True, mine_count=0`.  `mine_count` is a
Python `int` that is only ever incremented from 0, so it is embedded as `Nat`. -/
structure Cell where
  mine : Bool := false
  flagged : Bool := false
  covered : Bool := true
  mine_count : Nat := 0
deriving DecidableEq, Repr

/-- `class Board` (line 26): dimensions, requested mine total, and the
column-major grid `cells[x][y]`. -/
structure Board where
  cols : Int
  rows : Int
  mines : Int
  cells : List (List Cell)
deriving DecidableEq, Repr

/-- Resolve a Python list index: `some` of the effective non-negative index,
or `none` for an `IndexError`. -/
def pyIdx (len : Nat) (i : Int) : Option Nat :=
  if 0 ≤ i ∧ i < (len : Int) then some i.toNat
  else if -(len : Int) ≤ i ∧ i < 0 then some ((len : Int) + i).toNat
  else none

/-- `self.cells[x][y]` as a read: `none` models `IndexError`. -/
def getCell (b : Board) (p : Pos) : Option Cell :=
  (pyIdx b.cells.length p.1).bind fun ix =>
  b.cells[ix]?.bind fun col =>
  (pyIdx col.length p.2).bind fun iy => col[iy]?

/-- In-place attribute assignment on `self.cells[x][y]`: replace the cell at
`p` by `f` of its current value (`none` models `IndexError`). -/
def modifyCell (b : Board) (p : Pos) (f : Cell → Cell) : Option Board :=
  (pyIdx b.cells.length p.1).bind fun ix =>
  b.cells[ix]?.bind fun col =>
  (pyIdx col.length p.2).bind fun iy =>
  col[iy]?.bind fun c =>
  some { b with cells := b.cells.set ix (col.set iy (f c)) }

/-- `Board.__post_init__` (lines 35–39): build the grid of default cells.
`range` of a non-positive Python int is empty, hence `Int.toNat`. -/
def mkBoard (cols rows mines : Int) : Board :=
  { cols := cols, rows := rows, mines := mines,
    cells := List.replicate cols.toNat (List.replicate rows.toNat {}) }

/-- Board construction (`Board(cols, rows, mines)` via the dataclass): the
constructor performs no validation and never raises, so it always succeeds. -/
def Board.new (cols rows mines : Int) : Except Err Board :=
  .ok (mkBoard cols rows mines)

/-- The eight neighbor coordinates of `Board._neighbors` (lines 44–53), in
the source's tuple order.  No clipping is performed. -/
def neighborsPos (p : Pos) : List Pos :=
  [(p.1 - 1, p.2 - 1), (p.1, p.2 - 1), (p.1 + 1, p.2 - 1),
   (p.1 - 1, p.2), (p.1 + 1, p.2),
   (p.1 - 1, p.2 + 1), (p.1, p.2 + 1), (p.1 + 1, p.2 + 1)]

/-- Evaluate `self.cells[a][b]` for each coordinate in turn, pairing it with
its key; the first failing lookup raises `IndexError` (`none`). -/
def pairCells (b : Board) : List Pos → Option (List (Pos × Cell))
  | [] => some []
  | q :: rest =>
    (getCell b q).bind fun c => (pairCells b rest).map fun cs => (q, c) :: cs

/-- `Board._neighbors` (line 54): the dict comprehension
`{(a, b): self.cells[a][b] for a, b in neighbors}`.  The eight keys are
pairwise distinct coordinates, insertion order is the tuple order, and each
value lookup may raise `IndexError` (`none`). -/
def nbhd (b : Board) (p : Pos) : Option (List (Pos × Cell)) :=
  pairCells b (neighborsPos p)

/-- `Board._flag_count` (lines 56–64): count flagged cells among the eight
dict values. -/
def flagCount (b : Board) (p : Pos) : Option Nat :=
  (nbhd b p).map (fun ns => (ns.filter (fun qc => qc.2.flagged)).length)

/-- Result of a stateful engine call: normal return, a raised exception
(carrying the board as mutated so far), or recursion that exceeds the fuel. -/
inductive PRes (α : Type) where
  | ok : Board → α → PRes α
  | err : Board → Err → PRes α
  | spin : PRes α
deriving DecidableEq, Repr

/-- The board carried by a result (`none` for fuel exhaustion). -/
def PRes.board : PRes α → Option Board
  | .ok b _ => some b
  | .err b _ => some b
  | .spin => none

/-- The exception carried by a result, if any. -/
def PRes.errOf : PRes α → Option Err
  | .err _ e => some e
  | _ => none

/-- `Board._uncover` (lines 66–72): raise `MineError(pos)` on a mine,
otherwise set `covered = False`. -/
def uncoverOne (b : Board) (p : Pos) : PRes Unit :=
  match getCell b p with
  | none => .err b .indexError
  | some c =>
    if c.mine then .err b (.mineError p)
    else
      match modifyCell b p (fun c => { c with covered := false }) with
      | none => .err b .indexError
      | some b' => .ok b' ()

/-- `poses` of `Board.initmines` (line 77): all grid coordinates, x-major. -/
def poses (b : Board) : List Pos :=
  (List.range b.cols.toNat).flatMap
    (fun x => (List.range b.rows.toNat).map (fun y => ((x : Int), (y : Int))))

/-- The mine-placement loop of `Board.initmines` (lines 80–81):
`self.cells[x][y].mine = True` for each sampled position. -/
def setMines : Board → List Pos → PRes Unit
  | b, [] => .ok b ()
  | b, q :: rest =>
    match modifyCell b q (fun c => { c with mine := true }) with
    | none => .err b .indexError
    | some b' => setMines b' rest

/-- The adjacency loop of `Board.initmines` (lines 84–88): for each grid
position, fetch the cell, build the neighbor dict (which may raise
`IndexError`), then add one to `mine_count` per mine-bearing dict value. -/
def addCounts : Board → List Pos → PRes Unit
  | b, [] => .ok b ()
  | b, q :: rest =>
    match getCell b q with
    | none => .err b .indexError
    | some _ =>
      match nbhd b q with
      | none => .err b .indexError
      | some ns =>
        let k := (ns.filter (fun qc => qc.2.mine)).length
        match modifyCell b q (fun c => { c with mine_count := c.mine_count + k }) with
        | none => .err b .indexError
        | some b' => addCounts b' rest

/-- `Board.initmines` (lines 74–88).  The draw of
`random.sample([pos for pos in poses if pos != start], self.mines)` is
abstracted by the `sample` argument (the list of positions the sampler
returned); the rest is translated directly: set `mine = True` on each sampled
position, then run the adjacency loop over all of `poses`. -/
def initmines (b : Board) (start : Pos) (sample : List Pos) : PRes Unit :=
  match setMines b sample with
  | .ok b' _ => addCounts b' (poses b')
  | r => r

/-- The inner loop of `Board.uncover` (lines 111–112):
`for nn_pos in self._neighbors(n_pos).keys(): uncovered.extend(self.uncover(nn_pos))`,
with `recur` standing for the recursive `self.uncover`. -/
def innerLoop (recur : Board → Pos → PRes (List Pos)) :
    Board → List Pos → List Pos → PRes (List Pos)
  | b, [], acc => .ok b acc
  | b, q :: rest, acc =>
    match recur b q with
    | .ok b' vs => innerLoop recur b' rest (acc ++ vs)
    | .err b' e => .err b' e
    | .spin => .spin

/-- The neighbor loop of `Board.uncover` (lines 106–112).  Each iteration
re-reads the live cell at `q` (the dict values are references into the
board, so earlier mutations in the same call are visible), possibly
uncovers it, and recurses through the neighbors of any zero-count non-mine
neighbor — note the recursion is not guarded by `covered`. -/
def outerLoop (recur : Board → Pos → PRes (List Pos)) :
    Board → List Pos → List Pos → PRes (List Pos)
  | b, [], acc => .ok b acc
  | b, q :: rest, acc =>
    match getCell b q with
    | none => .err b .indexError
    | some n =>
      match (if n.covered && !n.flagged then
               match uncoverOne b q with
               | .ok b' _ => PRes.ok b' (acc ++ [q])
               | .err b' e => PRes.err b' e
               | .spin => PRes.spin
             else PRes.ok b acc) with
      | .err b' e => .err b' e
      | .spin => .spin
      | .ok b2 acc2 =>
        if n.mine_count == 0 && !n.mine then
          match nbhd b2 q with
          | none => .err b2 .indexError
          | some _ =>
            match innerLoop recur b2 (neighborsPos q) acc2 with
            | .ok b3 acc3 => outerLoop recur b3 rest acc3
            | r => r
        else outerLoop recur b2 rest acc2

/-- The body of `Board.uncover` (lines 90–114), parametric in the recursive
call: fetch the cell, compare `mine_count` with the flag count (lines 96–98),
open the cell itself if covered (lines 100–103), then run the neighbor loop
(the `self._neighbors(pos)` dict built at line 106 may raise before the loop
starts). -/
def uncoverBody (recur : Board → Pos → PRes (List Pos)) (b : Board) (p : Pos) :
    PRes (List Pos) :=
  match getCell b p with
  | none => .err b .indexError
  | some cell =>
    match flagCount b p with
    | none => .err b .indexError
    | some fc =>
      if cell.mine_count ≠ fc then .ok b []
      else
        match (if cell.covered then uncoverOne b p else .ok b ()) with
        | .err b' e => .err b' e
        | .spin => .spin
        | .ok b1 _ =>
          match nbhd b1 p with
          | none => .err b1 .indexError
          | some _ => outerLoop recur b1 (neighborsPos p) [p]

/-- `Board.uncover` with explicit fuel bounding the recursion depth (Python
bounds it by the interpreter's stack; `spin` models exceeding any bound). -/
def uncoverF : Nat → Board → Pos → PRes (List Pos)
  | 0, _, _ => .spin
  | fuel + 1, b, p => uncoverBody (uncoverF fuel) b p

/-- `Board.flag` (lines 116–119): `self.cells[x][y].flagged = True`. -/
def flag (b : Board) (p : Pos) : PRes Unit :=
  match modifyCell b p (fun c => { c with flagged := true }) with
  | none => .err b .indexError
  | some b' => .ok b' ()

/-- `Board.unflag` (lines 121–124): `self.cells[x][y].flagged = False`. -/
def unflag (b : Board) (p : Pos) : PRes Unit :=
  match modifyCell b p (fun c => { c with flagged := false }) with
  | none => .err b .indexError
  | some b' => .ok b' ()

/-- `0 ≤ x < cols ∧ 0 ≤ y < rows`: the positions the spec calls in-bounds. -/
def Board.inBounds (b : Board) (p : Pos) : Prop :=
  0 ≤ p.1 ∧ p.1 < b.cols ∧ 0 ≤ p.2 ∧ p.2 < b.rows

instance (b : Board) (p : Pos) : Decidable (b.inBounds p) := by
  unfold Board.inBounds; infer_instance

/-- The grid really has `cols` columns of `rows` cells each (true of every
board the Python constructor builds). -/
def WellFormed (b : Board) : Prop :=
  b.cells.length = b.cols.toNat ∧ ∀ col ∈ b.cells, col.length = b.rows.toNat

/-- Build a `cols × rows` grid from a cell-valued function (used only to
write down concrete exhibit boards). -/
def gridOf (cols rows : Nat) (f : Nat → Nat → Cell) : List (List Cell) :=
  (List.range cols).map fun x => (List.range rows).map fun y => f x y

/-- A 5×5 board on which the flood fill cycles forever: every cell is
already uncovered, `mine_count` is 0 at `(1,1)` and `(2,2)` and 9 elsewhere,
no mines, no flags.  `uncover((1,1))` recurses through the zero-count
neighbor `(2,2)` back into `(1,1)` with unchanged state, because the
recursion at line 110 of the source is not guarded by `covered`. -/
def loopBoard : Board :=
  { cols := 5, rows := 5, mines := 0,
    cells := gridOf 5 5 fun x y =>
      { mine := false, flagged := false, covered := false,
        mine_count := if (x = 1 ∧ y = 1) ∨ (x = 2 ∧ y = 2) then 0 else 9 } }

/-- A 3×3 board whose only non-default cell content: mines at `(0,0)` and at
`(1,1)` (all cells covered, unflagged, `mine_count = 0`). -/
def cexA : Board :=
  { cols := 3, rows := 3, mines := 2,
    cells := gridOf 3 3 fun x y =>
      { mine := (x = 0 ∧ y = 0) ∨ (x = 1 ∧ y = 1), flagged := false,
        covered := true, mine_count := 0 } }

/-- A 3×3 board with covered, unflagged mines at `(0,0)` and `(1,0)` and a
mine-free centre with `mine_count = 0` (all cells covered, unflagged). -/
def cexB : Board :=
  { cols := 3, rows := 3, mines := 2,
    cells := gridOf 3 3 fun x y =>
      { mine := (x = 0 ∧ y = 0) ∨ (x = 1 ∧ y = 0), flagged := false,
        covered := true, mine_count := 0 } }

/-- A 3×3 board whose only mine sits at the far corner `(2,2)`. -/
def cexW : Board :=
  { cols := 3, rows := 3, mines := 1,
    cells := gridOf 3 3 fun x y =>
      { mine := x = 2 ∧ y = 2, flagged := false, covered := true,
        mine_count := 0 } }

/-- C1: the claim says `_neighbors` returns only positions inside
`[0,cols) × [0,rows)`, never wraps to the opposite edge and never indexes
past bounds.  The code does none of this: at the corner `(0,0)` of a 3×3
board it returns all eight raw offsets — including `(-1,-1)`, outside the
grid — and the value stored under the key `(-1,-1)` is the cell wrapped
around to the opposite corner `(2,2)` (here recognisable by its mine);
at the edge position `(2,0)` it raises `IndexError`. -/
theorem C1_neighbors_not_clipped :
    (nbhd (mkBoard 3 3 0) (0, 0)).map (List.map Prod.fst) =
      some [(-1, -1), (0, -1), (1, -1), (-1, 0), (1, 0), (-1, 1), (0, 1), (1, 1)] ∧
    ((nbhd cexW (0, 0)).map (List.map (fun qc => (qc.1, qc.2.mine)))) =
      some [((-1, -1), true), ((0, -1), false), ((1, -1), false), ((-1, 0), false),
            ((1, 0), false), ((-1, 1), false), ((0, 1), false), ((1, 1), false)] ∧
    nbhd (mkBoard 3 3 0) (2, 0) = none := by
  refine ⟨by rfl, by rfl, by rfl⟩

/-- C2: the claim describes the state after `initmines(start)` completes,
but on every valid configuration `initmines` raises `IndexError` before
completing: the adjacency loop evaluates `_neighbors` at edge positions,
which indexes one past the end of the cell array.  Exhibited on a 2×2
board with one mine at `(1,1)` (a legal sample for start `(0,0)`). -/
theorem C2_initmines_always_raises :
    (initmines (mkBoard 2 2 1) (0, 0) [(1, 1)]).errOf = some Err.indexError := by
  rfl

/-- Helper for C3: one unfolding of the uncover body on `loopBoard` at
`(1,1)` reaches the recursive call `recur loopBoard (1,1)` (through the
zero-count neighbor `(2,2)`) with the board unchanged, so if that call
exhausts its fuel, so does the whole body. -/
theorem uncoverBody_loopBoard_spin (g : Board → Pos → PRes (List Pos))
    (hg : g loopBoard (1, 1) = PRes.spin) :
    uncoverBody g loopBoard (1, 1) = PRes.spin := by
  have h2 : innerLoop g loopBoard (neighborsPos (2, 2)) [(1, 1)] = PRes.spin := by
    show (match g loopBoard (1, 1) with
          | PRes.ok b' vs =>
              innerLoop g b' [(2, 1), (3, 1), (1, 2), (3, 2), (1, 3), (2, 3), (3, 3)]
                ([(1, 1)] ++ vs)
          | PRes.err b' e => PRes.err b' e
          | PRes.spin => PRes.spin) = PRes.spin
    rw [hg]
  have h1 : uncoverBody g loopBoard (1, 1) =
      (match innerLoop g loopBoard (neighborsPos (2, 2)) [(1, 1)] with
       | PRes.ok b3 acc3 => outerLoop g b3 [] acc3
       | r => r) := rfl
  rw [h1, h2]

/-- C3: the claim says `uncover` terminates with recursion bounded by the
grid size because an uncovered cell no longer satisfies `is_covered`.  The
code's recursion (line 110) is not guarded by `covered`: on `loopBoard` the
call `uncover((1,1))` — an in-bounds position — re-invokes itself with
identical board state through the zero-count neighbor `(2,2)`, so no fuel
bound whatsoever suffices (in Python this is an unbounded recursion ended
only by `RecursionError`). -/
theorem C3_uncover_nonterminating :
    loopBoard.inBounds (1, 1) ∧
      ∀ fuel : Nat, uncoverF fuel loopBoard (1, 1) = PRes.spin := by
  refine ⟨by decide, ?_⟩
  intro fuel
  induction fuel with
  | zero => rfl
  | succ f ih => exact uncoverBody_loopBoard_spin (uncoverF f) ih

/-- C6: the claim says that on a 9×9 board with 0 mines a single `uncover`
after `initmines` opens all 81 cells.  The scenario is unreachable:
`initmines((0,0))` on the 9×9 board already raises `IndexError` (at grid
position `(0,8)` the neighbor dict indexes row 9 of a 9-row column). -/
theorem C6_initmines_9x9_raises :
    (initmines (mkBoard 9 9 0) (0, 0) []).errOf = some Err.indexError := by
  rfl


/-- A successfully resolved Python index is a valid physical index. -/
theorem pyIdx_lt {len : Nat} {i : Int} {j : Nat} (h : pyIdx len i = some j) :
    j < len := by
  unfold pyIdx at h
  split_ifs at h with h1 h2
  · injection h with h; omega
  · injection h with h; omega

/-- Writing back the element already stored at an index is a no-op. -/
theorem list_set_self {α : Type} {l : List α} {i : Nat} {a : α}
    (h : l[i]? = some a) : l.set i a = l := by
  apply List.ext_getElem?
  intro n
  rw [List.getElem?_set]
  by_cases hin : i = n
  · subst hin
    obtain ⟨hlt, hv⟩ := List.getElem?_eq_some_iff.mp h
    simp [hlt, hv.symm]
  · simp [hin]

/-- Unpack a successful `modifyCell` into its index resolution and the
explicit shape of the updated grid. -/
theorem modifyCell_unpack {b : Board} {p : Pos} {f : Cell → Cell} {b' : Board}
    (h : modifyCell b p f = some b') :
    ∃ ix col iy c,
      pyIdx b.cells.length p.1 = some ix ∧ b.cells[ix]? = some col ∧
      pyIdx col.length p.2 = some iy ∧ col[iy]? = some c ∧
      b' = { b with cells := b.cells.set ix (col.set iy (f c)) } ∧
      getCell b p = some c := by
  unfold modifyCell at h
  rw [Option.bind_eq_some] at h
  obtain ⟨ix, hix, h⟩ := h
  rw [Option.bind_eq_some] at h
  obtain ⟨col, hcol, h⟩ := h
  rw [Option.bind_eq_some] at h
  obtain ⟨iy, hiy, h⟩ := h
  rw [Option.bind_eq_some] at h
  obtain ⟨c, hc, h⟩ := h
  injection h with h
  refine ⟨ix, col, iy, c, hix, hcol, hiy, hc, h.symm, ?_⟩
  unfold getCell
  rw [hix, Option.some_bind, hcol, Option.some_bind, hiy, Option.some_bind]
  exact hc

/-- A successful `modifyCell` leaves the dimensions untouched. -/
theorem modifyCell_dims {b : Board} {p : Pos} {f : Cell → Cell} {b' : Board}
    (h : modifyCell b p f = some b') : b'.cols = b.cols ∧ b'.rows = b.rows := by
  obtain ⟨ix, col, iy, c, -, -, -, -, hb', -⟩ := modifyCell_unpack h
  rw [hb']
  exact ⟨rfl, rfl⟩

/-- After `modifyCell b p f`, the cell at `p` reads back as `f` of its old
value. -/
theorem getCell_modifyCell_self {b : Board} {p : Pos} {f : Cell → Cell}
    {b' : Board} (h : modifyCell b p f = some b') :
    ∃ c, getCell b p = some c ∧ getCell b' p = some (f c) := by
  obtain ⟨ix, col, iy, c, hix, hcol, hiy, hc, hb', hget⟩ := modifyCell_unpack h
  refine ⟨c, hget, ?_⟩
  have hixlt : ix < b.cells.length := pyIdx_lt hix
  have hiylt : iy < col.length := pyIdx_lt hiy
  unfold getCell
  rw [hb']
  simp only [List.length_set]
  rw [hix, Option.some_bind, List.getElem?_set_self hixlt, Option.some_bind,
    List.length_set, hiy, Option.some_bind]
  exact List.getElem?_set_self hiylt

/-- After `modifyCell b p f`, any position `q` either reads exactly as it
did before, or `q` aliases `p` (same physical cell, as Python's negative
indices allow): then `q` agreed with `p` before and agrees with it after. -/
theorem getCell_modifyCell_cases {b : Board} {p : Pos} {f : Cell → Cell}
    {b' : Board} (h : modifyCell b p f = some b') (q : Pos) :
    getCell b' q = getCell b q ∨
      (getCell b q = getCell b p ∧ getCell b' q = getCell b' p) := by
  obtain ⟨ix, col, iy, c, hix, hcol, hiy, hc, hb', hget⟩ := modifyCell_unpack h
  have hixlt : ix < b.cells.length := pyIdx_lt hix
  have hiylt : iy < col.length := pyIdx_lt hiy
  have hself : getCell b' p = some (f c) := by
    obtain ⟨c₀, hc₀, hc₀'⟩ := getCell_modifyCell_self h
    rw [hget] at hc₀
    injection hc₀ with hc₀
    rw [← hc₀] at hc₀'
    exact hc₀'
  have hq' : getCell b' q =
      (pyIdx b.cells.length q.1).bind fun jx =>
        ((b.cells.set ix (col.set iy (f c)))[jx]?).bind fun colq =>
          (pyIdx colq.length q.2).bind fun jy => colq[jy]? := by
    unfold getCell
    rw [hb']
    simp only [List.length_set]
  rw [hq', hself, hget]
  show ((pyIdx b.cells.length q.1).bind fun jx => _) = getCell b q ∨ _
  unfold getCell
  cases hjx : pyIdx b.cells.length q.1 with
  | none => exact Or.inl (by rw [Option.none_bind, Option.none_bind])
  | some jx =>
    rw [Option.some_bind, Option.some_bind]
    by_cases hxx : jx = ix
    · subst hxx
      rw [List.getElem?_set_self hixlt, hcol, Option.some_bind, Option.some_bind]
      simp only [List.length_set]
      cases hjy : pyIdx col.length q.2 with
      | none => exact Or.inl (by rw [Option.none_bind, Option.none_bind])
      | some jy =>
        rw [Option.some_bind, Option.some_bind]
        by_cases hyy : jy = iy
        · subst hyy
          exact Or.inr ⟨hc, List.getElem?_set_self hiylt⟩
        · rw [List.getElem?_set_ne (by omega)]
          exact Or.inl rfl
    · rw [List.getElem?_set_ne (by omega)]
      exact Or.inl rfl

/-- `modifyCell` preserves which positions resolve (the grid shape). -/
theorem getCell_modifyCell_isSome {b : Board} {p : Pos} {f : Cell → Cell}
    {b' : Board} (h : modifyCell b p f = some b') (q : Pos) :
    (getCell b' q).isSome = (getCell b q).isSome := by
  rcases getCell_modifyCell_cases h q with heq | ⟨hbq, hbq'⟩
  · rw [heq]
  · obtain ⟨c, hc, hc'⟩ := getCell_modifyCell_self h
    rw [hbq, hbq', hc, hc']
    rfl

/-- A readable cell can be modified. -/
theorem modifyCell_isSome_of_getCell {b : Board} {p : Pos} {c : Cell}
    (h : getCell b p = some c) (f : Cell → Cell) :
    ∃ b', modifyCell b p f = some b' := by
  unfold getCell at h
  rw [Option.bind_eq_some] at h
  obtain ⟨ix, hix, h⟩ := h
  rw [Option.bind_eq_some] at h
  obtain ⟨col, hcol, h⟩ := h
  rw [Option.bind_eq_some] at h
  obtain ⟨iy, hiy, h⟩ := h
  refine ⟨{ b with cells := b.cells.set ix (col.set iy (f c)) }, ?_⟩
  unfold modifyCell
  rw [hix, Option.some_bind, hcol, Option.some_bind, hiy, Option.some_bind, h,
    Option.some_bind]

/-- Modifying a cell by a function that fixes its current value is a no-op. -/
theorem modifyCell_id {b : Board} {p : Pos} {f : Cell → Cell} {c : Cell}
    (h : getCell b p = some c) (hf : f c = c) : modifyCell b p f = some b := by
  unfold getCell at h
  rw [Option.bind_eq_some] at h
  obtain ⟨ix, hix, h⟩ := h
  rw [Option.bind_eq_some] at h
  obtain ⟨col, hcol, h⟩ := h
  rw [Option.bind_eq_some] at h
  obtain ⟨iy, hiy, h⟩ := h
  unfold modifyCell
  rw [hix, Option.some_bind, hcol, Option.some_bind, hiy, Option.some_bind, h,
    Option.some_bind, hf, list_set_self h, list_set_self hcol]

/-- On a well-formed board every in-bounds position reads a cell. -/
theorem getCell_of_wf {b : Board} {p : Pos} (hwf : WellFormed b)
    (hin : b.inBounds p) : ∃ c, getCell b p = some c := by
  obtain ⟨hlen, hcols⟩ := hwf
  obtain ⟨hx0, hxc, hy0, hyr⟩ := hin
  have hcast : (b.cells.length : Int) = (b.cols.toNat : Int) := by
    exact_mod_cast hlen
  have hixlt : p.1.toNat < b.cells.length := by omega
  have hix : pyIdx b.cells.length p.1 = some p.1.toNat := by
    unfold pyIdx
    rw [if_pos ⟨hx0, by omega⟩]
  obtain ⟨col, hcol⟩ : ∃ col, b.cells[p.1.toNat]? = some col :=
    ⟨_, List.getElem?_eq_getElem hixlt⟩
  have hcollen : col.length = b.rows.toNat := hcols col (List.getElem?_mem hcol)
  have hcast2 : (col.length : Int) = (b.rows.toNat : Int) := by exact_mod_cast hcollen
  have hiylt : p.2.toNat < col.length := by omega
  have hiy : pyIdx col.length p.2 = some p.2.toNat := by
    unfold pyIdx
    rw [if_pos ⟨hy0, by omega⟩]
  obtain ⟨c, hcend⟩ : ∃ c, col[p.2.toNat]? = some c :=
    ⟨_, List.getElem?_eq_getElem hiylt⟩
  refine ⟨c, ?_⟩
  unfold getCell
  rw [hix, Option.some_bind, hcol, Option.some_bind, hiy, Option.some_bind]
  exact hcend

/-- C9: on any well-formed board and in-bounds position, `flag` succeeds and
sets `is_flagged = true` unconditionally — it never looks at `is_covered` or
any other field — calling it a second time returns the very same board, and
`unflag` afterwards restores `is_flagged = false`. -/
theorem C9_flag_idempotent_unflag_restores (b : Board) (p : Pos)
    (hwf : WellFormed b) (hin : b.inBounds p) :
    ∃ b₁ c₁, flag b p = .ok b₁ () ∧ getCell b₁ p = some c₁ ∧
      c₁.flagged = true ∧ flag b₁ p = .ok b₁ () ∧
      ∃ b₂ c₂, unflag b₁ p = .ok b₂ () ∧ getCell b₂ p = some c₂ ∧
        c₂.flagged = false := by
  obtain ⟨c, hc⟩ := getCell_of_wf hwf hin
  obtain ⟨b₁, hb₁⟩ := modifyCell_isSome_of_getCell hc (fun c => { c with flagged := true })
  obtain ⟨c₀, hc₀, hc₁⟩ := getCell_modifyCell_self hb₁
  rw [hc] at hc₀
  injection hc₀ with hc₀
  subst hc₀
  refine ⟨b₁, { c with flagged := true }, ?_, hc₁, rfl, ?_, ?_⟩
  · unfold flag
    rw [hb₁]
  · unfold flag
    rw [modifyCell_id hc₁ rfl]
  · obtain ⟨b₂, hb₂⟩ := modifyCell_isSome_of_getCell hc₁ (fun c => { c with flagged := false })
    obtain ⟨c₂, hc₂, hc₂'⟩ := getCell_modifyCell_self hb₂
    rw [hc₁] at hc₂
    injection hc₂ with hc₂
    subst hc₂
    refine ⟨b₂, _, ?_, hc₂', rfl⟩
    unfold unflag
    rw [hb₂]

/-- C9 witness: the theorem applied to the default 2×2 board at `(0,0)`. -/
theorem C9_witness :
    WellFormed (mkBoard 2 2 0) ∧ (mkBoard 2 2 0).inBounds (0, 0) ∧
    ∃ b₁ c₁, flag (mkBoard 2 2 0) (0, 0) = .ok b₁ () ∧
      getCell b₁ (0, 0) = some c₁ ∧ c₁.flagged = true ∧
      flag b₁ (0, 0) = .ok b₁ () ∧
      ∃ b₂ c₂, unflag b₁ (0, 0) = .ok b₂ () ∧ getCell b₂ (0, 0) = some c₂ ∧
        c₂.flagged = false := by
  refine ⟨⟨by decide, ?_⟩, by decide, ?_⟩
  · intro col hcol
    simp only [mkBoard, List.mem_replicate] at hcol
    rw [hcol.2]
    rfl
  · exact C9_flag_idempotent_unflag_restores (mkBoard 2 2 0) (0, 0)
      ⟨by decide, by intro col hcol; simp only [mkBoard, List.mem_replicate] at hcol; rw [hcol.2]; rfl⟩
      (by decide)

/-- C7 counterexample: the claim says construction fails with
`InvalidConfiguration` when `columns ≤ 0`; the code performs no validation
whatever — `Board(0, 5, 3)` constructs successfully (there is not even an
`InvalidConfiguration` error in the program). -/
theorem C7_counterexample : Board.new 0 5 3 = Except.ok (mkBoard 0 5 3) := rfl

/-- C7 (amended): construction never fails for any arguments — no
validation of `columns`, `rows` or `mine_count` is performed — and the
resulting grid consists entirely of default cells
(`is_mine=false, is_flagged=false, is_covered=true, adjacent_mine_count=0`). -/
theorem C7_construction_never_fails (cols rows mines : Int) :
    Board.new cols rows mines = .ok (mkBoard cols rows mines) ∧
    ∀ p c, getCell (mkBoard cols rows mines) p = some c → c = {} := by
  refine ⟨rfl, ?_⟩
  intro p c hc
  unfold getCell mkBoard at hc
  rw [Option.bind_eq_some] at hc
  obtain ⟨ix, hix, hc⟩ := hc
  rw [Option.bind_eq_some] at hc
  obtain ⟨col, hcol, hc⟩ := hc
  rw [Option.bind_eq_some] at hc
  obtain ⟨iy, hiy, hc⟩ := hc
  simp only [List.getElem?_replicate] at hcol
  split_ifs at hcol
  injection hcol with hcol
  rw [← hcol] at hc
  simp only [List.getElem?_replicate] at hc
  split_ifs at hc
  injection hc with hc
  exact hc.symm

/-- C7 witness: the amended statement applied to the 2×2 board at `(0,0)`. -/
theorem C7_witness :
    Board.new 2 2 0 = .ok (mkBoard 2 2 0) ∧
    getCell (mkBoard 2 2 0) (0, 0) = some {} ∧ ({} : Cell) = {} :=
  ⟨(C7_construction_never_fails 2 2 0).1, by rfl,
    (C7_construction_never_fails 2 2 0).2 (0, 0) {} (by rfl)⟩

/-- C4: on any board, if the cell at the in-bounds position `p` is covered,
is a mine, and its `mine_count` equals the (successfully computed) flag
count, then `uncover` raises `MineError(p)` — for `p` itself — and the
board is returned exactly as it was, so the mine cell is still covered. -/
theorem C4_mine_hit (b : Board) (p : Pos) (c : Cell) (fc fuel : Nat)
    (hin : b.inBounds p) (hc : getCell b p = some c) (hcov : c.covered = true)
    (hmine : c.mine = true) (hfc : flagCount b p = some fc)
    (hgate : c.mine_count = fc) :
    uncoverF (fuel + 1) b p = .err b (.mineError p) := by
  subst hgate
  show uncoverBody (uncoverF fuel) b p = _
  unfold uncoverBody uncoverOne
  simp only [hc, hfc, hcov, hmine, ne_eq, not_true_eq_false, if_false, if_true]

/-- C4 witness: the centre of `cexA` is a covered mine with `mine_count = 0`
and no surrounding flags; `uncover((1,1))` raises `MineError((1,1))` and
returns the board unchanged. -/
theorem C4_witness :
    cexA.inBounds (1, 1) ∧
    getCell cexA (1, 1) = some ⟨true, false, true, 0⟩ ∧
    flagCount cexA (1, 1) = some 0 ∧
    uncoverF 1 cexA (1, 1) = .err cexA (.mineError (1, 1)) :=
  ⟨by decide, by rfl, by rfl,
    C4_mine_hit cexA (1, 1) ⟨true, false, true, 0⟩ 0 0 (by decide) (by rfl)
      rfl rfl (by rfl) rfl⟩

/-- C5: on any board, if the cell at the in-bounds position `p` has a
`mine_count` different from the (successfully computed) flag count, then
`uncover` is a no-op: it returns the empty list and the board unchanged. -/
theorem C5_gate_noop (b : Board) (p : Pos) (c : Cell) (fc fuel : Nat)
    (hin : b.inBounds p) (hc : getCell b p = some c)
    (hfc : flagCount b p = some fc) (hgate : c.mine_count ≠ fc) :
    uncoverF (fuel + 1) b p = .ok b [] := by
  show uncoverBody (uncoverF fuel) b p = _
  unfold uncoverBody
  simp only [hc, hfc, ne_eq, hgate, not_false_eq_true, if_true]

/-- C5 witness: `(0,0)` on `loopBoard` has `mine_count = 9` and no flagged
neighbors, so `uncover((0,0))` returns `[]` with the board unchanged. -/
theorem C5_witness :
    loopBoard.inBounds (0, 0) ∧
    getCell loopBoard (0, 0) = some ⟨false, false, false, 9⟩ ∧
    flagCount loopBoard (0, 0) = some 0 ∧ (9 : Nat) ≠ 0 ∧
    uncoverF 1 loopBoard (0, 0) = .ok loopBoard [] :=
  ⟨by decide, by rfl, by rfl, by decide,
    C5_gate_noop loopBoard (0, 0) ⟨false, false, false, 9⟩ 0 0 (by decide)
      (by rfl) (by rfl) (by decide)⟩

/-- Board evolution relation: the grid shape is unchanged and no cell goes
from uncovered back to covered (`is_covered` can only fall). -/
def Evol (b b' : Board) : Prop :=
  (∀ q, (getCell b' q).isSome = (getCell b q).isSome) ∧
  ∀ q c c', getCell b q = some c → getCell b' q = some c' →
    c'.covered = true → c.covered = true

/-- Evolution is reflexive. -/
theorem Evol.refl (b : Board) : Evol b b :=
  ⟨fun _ => rfl, fun q c c' hc hc' h => by
    rw [hc] at hc'; injection hc' with hc'; rwa [hc']⟩

/-- Evolution composes. -/
theorem Evol.trans {b b' b'' : Board} (h1 : Evol b b') (h2 : Evol b' b'') :
    Evol b b'' := by
  refine ⟨fun q => (h2.1 q).trans (h1.1 q), ?_⟩
  intro q c c'' hc hc'' hcov
  have hs : (getCell b' q).isSome = true := by rw [h1.1 q, hc]; rfl
  obtain ⟨c', hc'⟩ := Option.isSome_iff_exists.mp hs
  exact h1.2 q c c' hc hc' (h2.2 q c' c'' hc' hc'' hcov)

/-- A cell update whose function never raises `covered` is an evolution. -/
theorem evol_modifyCell {b : Board} {p : Pos} {f : Cell → Cell} {b' : Board}
    (h : modifyCell b p f = some b')
    (hf : ∀ c, (f c).covered = true → c.covered = true) : Evol b b' := by
  refine ⟨getCell_modifyCell_isSome h, ?_⟩
  intro q c c' hc hc' hcov
  obtain ⟨c₀, hc₀, hc₀'⟩ := getCell_modifyCell_self h
  rcases getCell_modifyCell_cases h q with heq | ⟨hbq, hbq'⟩
  · rw [heq, hc] at hc'
    injection hc' with hc'
    rwa [hc']
  · rw [hbq, hc₀] at hc
    injection hc with hc
    rw [hbq', hc₀'] at hc'
    injection hc' with hc'
    rw [← hc]
    exact hf c₀ (by rwa [hc'])

/-- `_uncover` only ever clears `covered` (and returns the board untouched
on an error), so it is an evolution. -/
theorem evol_uncoverOne {b : Board} {p : Pos} {b' : Board}
    (h : (uncoverOne b p).board = some b') : Evol b b' := by
  unfold uncoverOne at h
  split at h
  · simp only [PRes.board] at h
    injection h with h
    rw [← h]
    exact Evol.refl b
  · split at h
    · simp only [PRes.board] at h
      injection h with h
      rw [← h]
      exact Evol.refl b
    · split at h
      · simp only [PRes.board] at h
        injection h with h
        rw [← h]
        exact Evol.refl b
      · rename_i heq
        simp only [PRes.board] at h
        injection h with h
        rw [← h]
        exact evol_modifyCell heq (fun c hc => by exact absurd hc (by simp))

/-- The mine-placement loop never touches `covered`. -/
theorem evol_setMines :
    ∀ (l : List Pos) (b b' : Board), (setMines b l).board = some b' → Evol b b'
  | [], b, b', h => by
    simp only [setMines, PRes.board] at h
    injection h with h
    rw [← h]
    exact Evol.refl b
  | q :: rest, b, b', h => by
    simp only [setMines] at h
    split at h
    · simp only [PRes.board] at h
      injection h with h
      rw [← h]
      exact Evol.refl b
    · rename_i b₂ heq
      exact (evol_modifyCell heq (fun c hc => hc)).trans (evol_setMines rest b₂ b' h)

/-- The adjacency loop never touches `covered`. -/
theorem evol_addCounts :
    ∀ (l : List Pos) (b b' : Board), (addCounts b l).board = some b' → Evol b b'
  | [], b, b', h => by
    simp only [addCounts, PRes.board] at h
    injection h with h
    rw [← h]
    exact Evol.refl b
  | q :: rest, b, b', h => by
    simp only [addCounts] at h
    split at h
    · simp only [PRes.board] at h
      injection h with h
      rw [← h]
      exact Evol.refl b
    · split at h
      · simp only [PRes.board] at h
        injection h with h
        rw [← h]
        exact Evol.refl b
      · split at h
        · simp only [PRes.board] at h
          injection h with h
          rw [← h]
          exact Evol.refl b
        · rename_i b₂ heq
          exact (evol_modifyCell heq (fun c hc => hc)).trans
            (evol_addCounts rest b₂ b' h)

/-- `initmines` never touches `covered`, whether it completes or raises. -/
theorem evol_initmines {b : Board} {start : Pos} {sample : List Pos}
    {b' : Board} (h : (initmines b start sample).board = some b') :
    Evol b b' := by
  unfold initmines at h
  split at h
  · rename_i b₂ v heq
    have h1 : Evol b b₂ := evol_setMines sample b b₂ (by rw [heq]; rfl)
    exact h1.trans (evol_addCounts (poses b₂) b₂ b' h)
  · rename_i hne
    cases hsm : setMines b sample with
    | ok b₂ v => exact absurd hsm (fun hh => by exact (hne b₂ v hh).elim)
    | err b₂ e =>
      rw [hsm] at h
      simp only [PRes.board] at h
      injection h with h
      rw [← h]
      exact evol_setMines sample b b₂ (by rw [hsm]; rfl)
    | spin =>
      rw [hsm] at h
      exact absurd h (by simp [PRes.board])

/-- The recursive inner loop is an evolution whenever the recursive call is. -/
theorem evol_innerLoop (recur : Board → Pos → PRes (List Pos))
    (hr : ∀ b q b', (recur b q).board = some b' → Evol b b') :
    ∀ (l : List Pos) (b : Board) (acc : List Pos) (b' : Board),
      (innerLoop recur b l acc).board = some b' → Evol b b'
  | [], b, acc, b', h => by
    simp only [innerLoop, PRes.board] at h
    injection h with h
    rw [← h]
    exact Evol.refl b
  | q :: rest, b, acc, b', h => by
    simp only [innerLoop] at h
    split at h
    · rename_i b₂ vs heq
      exact (hr b q b₂ (by rw [heq]; rfl)).trans
        (evol_innerLoop recur hr rest b₂ (acc ++ vs) b' h)
    · rename_i b₂ e heq
      simp only [PRes.board] at h
      injection h with h
      rw [← h]
      exact hr b q b₂ (by rw [heq]; rfl)
    · exact absurd h (by simp [PRes.board])

/-- The per-neighbor open step of the outer loop is an evolution (success case). -/
theorem evol_outerStep {b : Board} {q : Pos} {n : Cell} {acc : List Pos}
    {b₂ : Board} {acc₂ : List Pos}
    (h : (if n.covered && !n.flagged then
            match uncoverOne b q with
            | .ok b' _ => PRes.ok b' (acc ++ [q])
            | .err b' e => PRes.err b' e
            | .spin => PRes.spin
          else PRes.ok b acc) = PRes.ok b₂ acc₂) : Evol b b₂ := by
  split at h
  · split at h
    · rename_i heq
      injection h with h1 h2
      rw [← h1]
      exact evol_uncoverOne (p := q) (by rw [heq]; rfl)
    · exact absurd h (by simp)
    · exact absurd h (by simp)
  · injection h with h1 h2
    rw [← h1]
    exact Evol.refl b

/-- The per-neighbor open step of the outer loop is an evolution (raise case). -/
theorem evol_outerStepErr {b : Board} {q : Pos} {n : Cell} {acc : List Pos}
    {b₂ : Board} {e : Err}
    (h : (if n.covered && !n.flagged then
            match uncoverOne b q with
            | .ok b' _ => PRes.ok b' (acc ++ [q])
            | .err b' e => PRes.err b' e
            | .spin => PRes.spin
          else PRes.ok b acc) = PRes.err b₂ e) : Evol b b₂ := by
  split at h
  · split at h
    · exact absurd h (by simp)
    · rename_i heq
      injection h with h1 h2
      rw [← h1]
      exact evol_uncoverOne (p := q) (by rw [heq]; rfl)
    · exact absurd h (by simp)
  · exact absurd h (by simp)

/-- The neighbor loop of `uncover` is an evolution whenever the recursive
call is. -/
theorem evol_outerLoop (recur : Board → Pos → PRes (List Pos))
    (hr : ∀ b q b', (recur b q).board = some b' → Evol b b') :
    ∀ (l : List Pos) (b : Board) (acc : List Pos) (b' : Board),
      (outerLoop recur b l acc).board = some b' → Evol b b'
  | [], b, acc, b', h => by
    simp only [outerLoop, PRes.board] at h
    injection h with h
    rw [← h]
    exact Evol.refl b
  | q :: rest, b, acc, b', h => by
    simp only [outerLoop] at h
    split at h
    · simp only [PRes.board] at h
      injection h with h
      rw [← h]
      exact Evol.refl b
    · rename_i n hn
      split at h
      · rename_i b₂ e heq
        simp only [PRes.board] at h
        injection h with h
        rw [← h]
        exact evol_outerStepErr heq
      · exact absurd h (by simp [PRes.board])
      · rename_i b₂ acc₂ heq
        have h2 : Evol b b₂ := evol_outerStep heq
        split at h
        · split at h
          · simp only [PRes.board] at h
            injection h with h
            rw [← h]
            exact h2
          · split at h
            · rename_i b₃ acc₃ heq3
              have h3 : Evol b₂ b₃ :=
                evol_innerLoop recur hr (neighborsPos q) b₂ acc₂ b₃
                  (by rw [heq3]; rfl)
              exact (h2.trans h3).trans
                (evol_outerLoop recur hr rest b₃ acc₃ b' h)
            · rename_i hne
              cases hil : innerLoop recur b₂ (neighborsPos q) acc₂ with
              | ok b₃ acc₃ => exact absurd hil (fun hh => (hne b₃ acc₃ hh).elim)
              | err b₃ e =>
                rw [hil] at h
                simp only [PRes.board] at h
                injection h with h
                rw [← h]
                exact h2.trans (evol_innerLoop recur hr (neighborsPos q) b₂ acc₂
                  b₃ (by rw [hil]; rfl))
              | spin =>
                rw [hil] at h
                exact absurd h (by simp [PRes.board])
        · exact h2.trans (evol_outerLoop recur hr rest b₂ acc₂ b' h)

/-- `uncover` at any fuel is an evolution: every board it can leave behind
(normal return or raise) has only lost `covered` flags. -/
theorem evol_uncoverF :
    ∀ (fuel : Nat) (b : Board) (p : Pos) (b' : Board),
      (uncoverF fuel b p).board = some b' → Evol b b'
  | 0, b, p, b', h => by exact absurd h (by simp [uncoverF, PRes.board])
  | fuel + 1, b, p, b', h => by
    have hb : uncoverF (fuel + 1) b p = uncoverBody (uncoverF fuel) b p := rfl
    rw [hb] at h
    unfold uncoverBody at h
    split at h
    · simp only [PRes.board] at h
      injection h with h
      rw [← h]
      exact Evol.refl b
    · rename_i cell hcell
      split at h
      · simp only [PRes.board] at h
        injection h with h
        rw [← h]
        exact Evol.refl b
      · split at h
        · simp only [PRes.board] at h
          injection h with h
          rw [← h]
          exact Evol.refl b
        · split at h
          · rename_i b₁ e heq
            simp only [PRes.board] at h
            injection h with h
            rw [← h]
            split at heq
            · exact evol_uncoverOne (p := p) (by rw [heq]; rfl)
            · exact absurd heq (by simp)
          · exact absurd h (by simp [PRes.board])
          · rename_i b₁ u heq
            have h1 : Evol b b₁ := by
              split at heq
              · exact evol_uncoverOne (p := p) (by rw [heq]; rfl)
              · injection heq with heq1 heq2
                rw [← heq1]
                exact Evol.refl b
            split at h
            · simp only [PRes.board] at h
              injection h with h
              rw [← h]
              exact h1
            · exact h1.trans
                (evol_outerLoop (uncoverF fuel) (evol_uncoverF fuel)
                  (neighborsPos p) b₁ [p] b' h)

/-- `flag` never touches `covered`. -/
theorem evol_flag {b : Board} {p : Pos} {b' : Board}
    (h : (flag b p).board = some b') : Evol b b' := by
  unfold flag at h
  split at h
  · simp only [PRes.board] at h
    injection h with h
    rw [← h]
    exact Evol.refl b
  · rename_i b₂ heq
    simp only [PRes.board] at h
    injection h with h
    rw [← h]
    exact evol_modifyCell heq (fun c hc => hc)

/-- `unflag` never touches `covered`. -/
theorem evol_unflag {b : Board} {p : Pos} {b' : Board}
    (h : (unflag b p).board = some b') : Evol b b' := by
  unfold unflag at h
  split at h
  · simp only [PRes.board] at h
    injection h with h
    rw [← h]
    exact Evol.refl b
  · rename_i b₂ heq
    simp only [PRes.board] at h
    injection h with h
    rw [← h]
    exact evol_modifyCell heq (fun c hc => hc)

/-- C8: `is_covered` only ever transitions true to false.  Whatever board any
operation of the engine (`initmines`, `uncover` at any recursion depth,
`flag`, `unflag`) leaves behind — on normal return or on a raised error —
every cell that reads covered afterwards was covered before, i.e. no
operation ever re-covers a cell. -/
theorem C8_covered_monotone (b : Board) :
    (∀ start sample b', (initmines b start sample).board = some b' → Evol b b') ∧
    (∀ fuel p b', (uncoverF fuel b p).board = some b' → Evol b b') ∧
    (∀ p b', (flag b p).board = some b' → Evol b b') ∧
    (∀ p b', (unflag b p).board = some b' → Evol b b') :=
  ⟨fun _ _ _ h => evol_initmines h,
   fun fuel p b' h => evol_uncoverF fuel b p b' h,
   fun _ _ h => evol_flag h,
   fun _ _ h => evol_unflag h⟩

/-- The 2x2 default board after `flag((0,0))`. -/
def flagBoard22 : Board :=
  { cols := 2, rows := 2, mines := 0,
    cells := [[⟨false, true, true, 0⟩, ⟨false, false, true, 0⟩],
              [⟨false, false, true, 0⟩, ⟨false, false, true, 0⟩]] }

/-- C8 witness: the theorem applied to `flag` on the default 2x2 board. -/
theorem C8_witness :
    (flag (mkBoard 2 2 0) (0, 0)).board = some flagBoard22 ∧
      Evol (mkBoard 2 2 0) flagBoard22 :=
  ⟨by rfl, (C8_covered_monotone (mkBoard 2 2 0)).2.2.1 (0, 0) flagBoard22 (by rfl)⟩

/-- A neighbor key is never the centre position itself. -/
theorem neighborsPos_ne {p q : Pos} (hq : q ∈ neighborsPos p) : q ≠ p := by
  unfold neighborsPos at hq
  simp only [List.mem_cons, List.not_mem_nil, or_false] at hq
  rcases hq with h | h | h | h | h | h | h | h <;>
    · intro hqp
      rw [hqp] at h
      have h1 := congrArg Prod.fst h
      have h2 := congrArg Prod.snd h
      simp only at h1 h2
      omega

/-- The neighbor dict builds iff every neighbor lookup succeeds. -/
theorem pairCells_isSome {b : Board} : ∀ {l : List Pos},
    (pairCells b l).isSome = true ↔ ∀ r ∈ l, (getCell b r).isSome = true := by
  intro l
  induction l with
  | nil => simp [pairCells]
  | cons q rest ih =>
    simp only [pairCells]
    cases hgq : getCell b q with
    | none =>
      simp only [hgq, Option.none_bind]
      constructor
      · intro h
        exact absurd h (by simp)
      · intro h
        have hh := h q (List.mem_cons_self q rest)
        rw [hgq] at hh
        exact absurd hh (by simp)
    | some c =>
      simp only [hgq, Option.some_bind, Option.isSome_map']
      constructor
      · intro h r hr
        rcases List.mem_cons.mp hr with h1 | h1
        · rw [h1, hgq]; rfl
        · exact (ih.mp h) r h1
      · intro h
        exact ih.mpr (fun r hr => h r (List.mem_cons_of_mem _ hr))

/-- If, in the neighbor loop, every position before `q` holds a non-mine
cell with nonzero `mine_count` (so it is at most opened, never recursed
into) and `q` holds a covered, unflagged mine, the loop raises
`MineError(q)`; the mine cell is untouched and every cell that was already
uncovered stays uncovered. -/
theorem outerLoop_first_mine (recur : Board → Pos → PRes (List Pos)) :
    ∀ (pre : List Pos) (b : Board) (acc : List Pos) (q : Pos) (rest : List Pos)
      (nq : Cell),
      getCell b q = some nq → nq.covered = true → nq.flagged = false →
      nq.mine = true →
      (∀ r ∈ pre, ∃ nr, getCell b r = some nr ∧ nr.mine = false ∧
        nr.mine_count ≠ 0) →
      ∃ b', outerLoop recur b (pre ++ q :: rest) acc = .err b' (.mineError q) ∧
        getCell b' q = some nq ∧
        (∀ s cs, getCell b s = some cs → cs.covered = false →
          ∃ cs', getCell b' s = some cs' ∧ cs'.covered = false)
  | [], b, acc, q, rest, nq, hq, hqc, hqf, hqm, hpre => by
    refine ⟨b, ?_, hq, fun s cs hs hcov => ⟨cs, hs, hcov⟩⟩
    simp only [List.nil_append, outerLoop, hq, hqc, hqf, Bool.not_false,
      Bool.and_self, if_true]
    unfold uncoverOne
    simp only [hq, hqm, if_true]
  | r :: pre', b, acc, q, rest, nq, hq, hqc, hqf, hqm, hpre => by
    obtain ⟨nr, hr, hrm, hrc⟩ := hpre r (List.mem_cons_self r pre')
    have hpre' : ∀ r' ∈ pre', ∃ nr', getCell b r' = some nr' ∧
        nr'.mine = false ∧ nr'.mine_count ≠ 0 :=
      fun r' h' => hpre r' (List.mem_cons_of_mem _ h')
    have hcount : (nr.mine_count == 0) = false := by
      simp only [beq_eq_false_iff_ne, ne_eq]
      exact hrc
    cases hcf : (nr.covered && !nr.flagged) with
    | false =>
      obtain ⟨b', heq, h1, h2⟩ :=
        outerLoop_first_mine recur pre' b acc q rest nq hq hqc hqf hqm hpre'
      refine ⟨b', ?_, h1, h2⟩
      simp only [List.cons_append, outerLoop, hr, hcf, hcount, Bool.false_and,
        if_false]
      exact heq
    | true =>
      obtain ⟨b₂, hb₂⟩ :=
        modifyCell_isSome_of_getCell hr (fun c => { c with covered := false })
      have hstep : uncoverOne b r = .ok b₂ () := by
        unfold uncoverOne
        simp only [hr, hrm, hb₂, Bool.false_eq_true, if_false]
      have hq₂ : getCell b₂ q = some nq := by
        rcases getCell_modifyCell_cases hb₂ q with heq | ⟨h1, h2⟩
        · rw [heq, hq]
        · rw [hq, hr] at h1
          injection h1 with h1
          rw [h1, hrm] at hqm
          exact absurd hqm (by simp)
      have hpre₂ : ∀ r' ∈ pre', ∃ nr', getCell b₂ r' = some nr' ∧
          nr'.mine = false ∧ nr'.mine_count ≠ 0 := by
        intro r' h'
        obtain ⟨nr', hr', hm', hc'⟩ := hpre' r' h'
        rcases getCell_modifyCell_cases hb₂ r' with heq | ⟨h1, h2⟩
        · exact ⟨nr', by rw [heq]; exact hr', hm', hc'⟩
        · obtain ⟨c₀, hc₀, hc₀'⟩ := getCell_modifyCell_self hb₂
          rw [hr] at hc₀
          injection hc₀ with hc₀
          refine ⟨{ nr with covered := false }, ?_, hrm, hrc⟩
          rw [h2, hc₀', ← hc₀]
      have hpres₂ : ∀ s cs, getCell b s = some cs → cs.covered = false →
          ∃ cs', getCell b₂ s = some cs' ∧ cs'.covered = false := by
        intro s cs hs hcov
        rcases getCell_modifyCell_cases hb₂ s with heq | ⟨h1, h2⟩
        · exact ⟨cs, by rw [heq]; exact hs, hcov⟩
        · obtain ⟨c₀, hc₀, hc₀'⟩ := getCell_modifyCell_self hb₂
          refine ⟨{ c₀ with covered := false }, ?_, rfl⟩
          rw [h2, hc₀']
      obtain ⟨b', heq, h1, h2⟩ :=
        outerLoop_first_mine recur pre' b₂ (acc ++ [r]) q rest nq hq₂ hqc hqf
          hqm hpre₂
      refine ⟨b', ?_, h1, fun s cs hs hcov => ?_⟩
      · simp only [List.cons_append, outerLoop, hr, hcf, hstep, hcount,
          Bool.false_and, if_true, if_false]
        exact heq
      · obtain ⟨cs₂, hcs₂, hcov₂⟩ := hpres₂ s cs hs hcov
        exact h2 s cs₂ hcs₂ hcov₂

/-- C10 (amended): if `uncover(pos)` passes the flag-count gate, the cell at
`pos` is not itself a mine, and the first neighbor in iteration order that
is covered and unflagged is a mine `q` (every neighbor before `q` being a
non-mine with nonzero `mine_count`), then the call raises `MineTriggered`
identifying `q` — a position distinct from `pos` — with `q`'s cell left
covered, while `pos`, uncovered earlier in the same call, stays uncovered:
the operation is not atomic on this error. -/
theorem C10_amended (b : Board) (p : Pos) (c : Cell) (fuel : Nat)
    (pre rest : List Pos) (q : Pos) (nq : Cell)
    (hin : b.inBounds p)
    (hc : getCell b p = some c) (hcm : c.mine = false)
    (hfc : flagCount b p = some c.mine_count)
    (hsplit : neighborsPos p = pre ++ q :: rest)
    (hq : getCell b q = some nq) (hqc : nq.covered = true)
    (hqf : nq.flagged = false) (hqm : nq.mine = true)
    (hpre : ∀ r ∈ pre, ∃ nr, getCell b r = some nr ∧ nr.mine = false ∧
      nr.mine_count ≠ 0) :
    q ≠ p ∧ ∃ b', uncoverF (fuel + 1) b p = .err b' (.mineError q) ∧
      (∃ cq, getCell b' q = some cq ∧ cq.covered = true) ∧
      (∃ cp, getCell b' p = some cp ∧ cp.covered = false) := by
  have hqne : q ≠ p := neighborsPos_ne
    (by rw [hsplit]; exact List.mem_append_right _ (List.mem_cons_self q rest))
  refine ⟨hqne, ?_⟩
  obtain ⟨b₁, hstep, hq₁, hp₁, hpre₁, hsome₁⟩ :
      ∃ b₁, (if c.covered then uncoverOne b p else .ok b ()) = .ok b₁ () ∧
        getCell b₁ q = some nq ∧
        (∃ cp, getCell b₁ p = some cp ∧ cp.covered = false) ∧
        (∀ r ∈ pre, ∃ nr, getCell b₁ r = some nr ∧ nr.mine = false ∧
          nr.mine_count ≠ 0) ∧
        (∀ s, (getCell b₁ s).isSome = (getCell b s).isSome) := by
    cases hcov : c.covered with
    | false =>
      refine ⟨b, ?_, hq, ⟨c, hc, hcov⟩, hpre, fun s => rfl⟩
      simp [hcov]
    | true =>
      obtain ⟨b₁, hb₁⟩ :=
        modifyCell_isSome_of_getCell hc (fun c => { c with covered := false })
      have hu : uncoverOne b p = .ok b₁ () := by
        unfold uncoverOne
        simp only [hc, hcm, Bool.false_eq_true, if_false, hb₁]
      refine ⟨b₁, by simp [hcov, hu], ?_, ?_, ?_,
        fun s => getCell_modifyCell_isSome hb₁ s⟩
      · rcases getCell_modifyCell_cases hb₁ q with heq | ⟨h1, h2⟩
        · rw [heq, hq]
        · rw [hq, hc] at h1
          injection h1 with h1
          rw [h1, hcm] at hqm
          exact absurd hqm (by simp)
      · obtain ⟨c₀, hc₀, hc₀'⟩ := getCell_modifyCell_self hb₁
        rw [hc] at hc₀
        injection hc₀ with hc₀
        rw [← hc₀] at hc₀'
        exact ⟨{ c with covered := false }, hc₀', rfl⟩
      · intro r hrr
        obtain ⟨nr, hr, hm, hcnt⟩ := hpre r hrr
        rcases getCell_modifyCell_cases hb₁ r with heq | ⟨h1, h2⟩
        · exact ⟨nr, by rw [heq]; exact hr, hm, hcnt⟩
        · rw [hr, hc] at h1
          injection h1 with h1
          obtain ⟨c₀, hc₀, hc₀'⟩ := getCell_modifyCell_self hb₁
          rw [hc] at hc₀
          injection hc₀ with hc₀
          rw [← hc₀] at hc₀'
          refine ⟨{ c with covered := false }, by rw [h2]; exact hc₀', hcm, ?_⟩
          show c.mine_count ≠ 0
          rw [← h1]
          exact hcnt
  have hnb : ∃ ns, nbhd b₁ p = some ns := by
    have h0 : (nbhd b p).isSome = true := by
      unfold flagCount at hfc
      cases hn : nbhd b p with
      | none => rw [hn] at hfc; exact absurd hfc (by simp)
      | some ns => rfl
    have h1 : (nbhd b₁ p).isSome = true := by
      unfold nbhd at h0 ⊢
      rw [pairCells_isSome] at h0 ⊢
      intro r hrr
      rw [hsome₁ r]
      exact h0 r hrr
    exact Option.isSome_iff_exists.mp h1
  obtain ⟨ns₁, hns₁⟩ := hnb
  obtain ⟨b', heq, hq', hpres⟩ :=
    outerLoop_first_mine (uncoverF fuel) pre b₁ [p] q rest nq hq₁ hqc hqf hqm
      hpre₁
  refine ⟨b', ?_, ⟨nq, hq', hqc⟩, ?_⟩
  · show uncoverBody (uncoverF fuel) b p = _
    unfold uncoverBody
    simp only [hc, hfc, ne_eq, not_true_eq_false, if_false, hstep, hns₁]
    rw [hsplit]
    exact heq
  · obtain ⟨cp, hcp, hcpcov⟩ := hp₁
    obtain ⟨cp', hcp', hcov'⟩ := hpres p cp hcp hcpcov
    exact ⟨cp', hcp', hcov'⟩

/-- C10 counterexample: the claim as stated is false.  On `cexA` the gate
passes and the neighbor `(0,0)` is a covered, unflagged mine, yet the call
raises `MineError((1,1))` — `pos` itself, a covered mine, not the neighbor.
On `cexB` the neighbor `(1,0)` also satisfies the hypothesis, yet the error
identifies `(0,0)`, the first qualifying neighbor in iteration order. -/
theorem C10_counterexample :
    (getCell cexA (1, 1) = some ⟨true, false, true, 0⟩ ∧
     flagCount cexA (1, 1) = some 0 ∧
     getCell cexA (0, 0) = some ⟨true, false, true, 0⟩ ∧
     uncoverF 2 cexA (1, 1) = .err cexA (.mineError (1, 1))) ∧
    (getCell cexB (1, 1) = some ⟨false, false, true, 0⟩ ∧
     flagCount cexB (1, 1) = some 0 ∧
     getCell cexB (1, 0) = some ⟨true, false, true, 0⟩ ∧
     (uncoverF 2 cexB (1, 1)).errOf = some (.mineError (0, 0))) :=
  ⟨⟨rfl, rfl, rfl, rfl⟩, ⟨rfl, rfl, rfl, rfl⟩⟩

/-- C10 witness: the amended theorem applied to `cexB` at `(1,1)` with the
mine neighbor `(0,0)` first in iteration order. -/
theorem C10_witness :
    ((0 : Int), (0 : Int)) ≠ ((1 : Int), (1 : Int)) ∧
    ∃ b', uncoverF 1 cexB (1, 1) = .err b' (.mineError (0, 0)) ∧
      (∃ cq, getCell b' (0, 0) = some cq ∧ cq.covered = true) ∧
      (∃ cp, getCell b' (1, 1) = some cp ∧ cp.covered = false) :=
  C10_amended cexB (1, 1) ⟨false, false, true, 0⟩ 0 []
    [(1, 0), (2, 0), (0, 1), (2, 1), (0, 2), (1, 2), (2, 2)] (0, 0)
    ⟨true, false, true, 0⟩ (by decide) (by rfl) rfl (by rfl) (by rfl) (by rfl)
    rfl rfl rfl (fun r hr => absurd hr (List.not_mem_nil r))
